import Mathlib

/-!
Verification development for the request admission and session control layer:
the token-bucket rate limiter (src/lib/rate-limit.ts), the bounded LRU cache
(src/lib/cache/lru-cache.ts), the session store (src/lib/cache/chat-cache.ts)
and the conversation history trimmer (the token utilities module and
src/lib/chat/service.ts).

Modelling conventions:
- JS `number` values holding fractional token counts are modelled as `ℚ`;
  `Date.now()` timestamps as `ℕ` (subtractions that may go negative are done
  in `ℤ` via casts, mirroring JS signed arithmetic).
- A JS `Map` is modelled as a `List (String × α)` in insertion order
  (`Map.set` of a present key updates in place, of a new key appends;
  `Map.delete` removes; iteration follows the list).
- Mutation is modelled by explicit state passing; `onEvict` callback
  invocations are returned as an explicit list of `(key, value)` pairs, in
  call order.
-/

namespace Spec2Proof

/-! ## JS Map primitives -/

/-- JS `Map.prototype.get`, on the association-list model. -/
def mapGet (m : List (String × α)) (k : String) : Option α :=
  (m.find? (fun p => p.1 == k)).map Prod.snd

/-- JS `Map.prototype.has`. -/
def mapHas (m : List (String × α)) (k : String) : Bool :=
  (mapGet m k).isSome

/-- JS `Map.prototype.delete` (ignoring the returned Bool where unused):
removes the entry with the given key. -/
def mapDelete (m : List (String × α)) (k : String) : List (String × α) :=
  m.filter (fun p => p.1 != k)

/-- JS `Map.prototype.set`: update in place when the key is present
(keeping its position), append otherwise. -/
def mapSet (m : List (String × α)) (k : String) (v : α) : List (String × α) :=
  if mapHas m k then m.map (fun p => if p.1 == k then (k, v) else p)
  else m ++ [(k, v)]

/-! ## Rate limiter (src/lib/rate-limit.ts) -/

/-- Per-key token bucket state (interface RateLimitEntry). `lastRequest` is
the optional timestamp of the last successful request. -/
structure RateLimitEntry where
  tokens : ℚ
  lastRefill : ℕ
  lastRequest : Option ℕ
deriving Repr, DecidableEq

/-- Rate limiter configuration (interface RateLimitConfig). -/
structure RateLimitConfig where
  maxTokens : ℚ
  refillRate : ℚ
  cleanupInterval : ℕ
deriving Repr, DecidableEq

/-- DEFAULT_CONFIG from src/lib/rate-limit.ts (refillRate 0.167 = 167/1000). -/
def DEFAULT_CONFIG : RateLimitConfig :=
  { maxTokens := 10, refillRate := 167/1000, cleanupInterval := 60000 }

/-- Result of RateLimiter.check. `remaining` is a JS number (the first-request
branch returns the unfloored bucket level, the others a floored one). -/
structure CheckResult where
  allowed : Bool
  remaining : ℚ
  retryAfter : Option ℚ
deriving Repr, DecidableEq

/-- MIN_REQUEST_INTERVAL from RateLimiter.check. -/
def MIN_REQUEST_INTERVAL : ℤ := 500

/-- The burst-protection test `entry.lastRequest && (now - entry.lastRequest)
< MIN_REQUEST_INTERVAL`: JS truthiness makes a `lastRequest` of 0 (or absent)
skip the check. -/
def burstHit (lastRequest : Option ℕ) (now : ℕ) : Bool :=
  match lastRequest with
  | none => false
  | some t => t != 0 && decide ((now : ℤ) - (t : ℤ) < MIN_REQUEST_INTERVAL)

/-- The refill step of RateLimiter.check (its first three statements on an
existing entry): `timePassed = (now - entry.lastRefill) / 1000`,
`tokensToAdd = timePassed * refillRate`,
`entry.tokens = min(maxTokens, entry.tokens + tokensToAdd)`,
`entry.lastRefill = now`. No clamping of a negative `timePassed`. -/
def RateLimiter.refill (cfg : RateLimitConfig) (entry : RateLimitEntry)
    (now : ℕ) : RateLimitEntry :=
  { entry with
    tokens := min cfg.maxTokens
      (entry.tokens + ((now : ℚ) - (entry.lastRefill : ℚ)) / 1000 * cfg.refillRate)
    lastRefill := now }

/-- RateLimiter.check, modelled per key: `bucket` is `this.buckets.get(key)`
and the returned entry is the state stored back for that key. -/
def RateLimiter.check (cfg : RateLimitConfig) (bucket : Option RateLimitEntry)
    (now : ℕ) : CheckResult × RateLimitEntry :=
  match bucket with
  | none =>
    let entry : RateLimitEntry :=
      { tokens := cfg.maxTokens - 1, lastRefill := now, lastRequest := some now }
    ({ allowed := true, remaining := entry.tokens, retryAfter := none }, entry)
  | some entry =>
    let entry1 := RateLimiter.refill cfg entry now
    if burstHit entry1.lastRequest now then
      ({ allowed := false, remaining := ((⌊entry1.tokens⌋ : ℤ) : ℚ),
         retryAfter := some 1 }, entry1)
    else if entry1.tokens ≥ 1 then
      let entry2 :=
        { entry1 with tokens := entry1.tokens - 1, lastRequest := some now }
      ({ allowed := true, remaining := ((⌊entry2.tokens⌋ : ℤ) : ℚ),
         retryAfter := none }, entry2)
    else
      let tokensNeeded := 1 - entry1.tokens
      ({ allowed := false, remaining := 0,
         retryAfter := some ((⌈tokensNeeded / cfg.refillRate⌉ : ℤ) : ℚ) }, entry1)

/-! ### Rate limiter lemmas -/

theorem refill_mono (cfg : RateLimitConfig) (entry : RateLimitEntry) (now : ℕ)
    (hclock : entry.lastRefill ≤ now) (hrate : 0 ≤ cfg.refillRate)
    (hmax : entry.tokens ≤ cfg.maxTokens) :
    entry.tokens ≤ (RateLimiter.refill cfg entry now).tokens := by
  unfold RateLimiter.refill
  have hdelta : (0 : ℚ) ≤ ((now : ℚ) - (entry.lastRefill : ℚ)) / 1000 := by
    have : (entry.lastRefill : ℚ) ≤ (now : ℚ) := by exact_mod_cast hclock
    have h2 : (0 : ℚ) ≤ (now : ℚ) - (entry.lastRefill : ℚ) := by linarith
    positivity
  have hadd : (0 : ℚ) ≤ ((now : ℚ) - (entry.lastRefill : ℚ)) / 1000 * cfg.refillRate :=
    mul_nonneg hdelta hrate
  simp only [le_min_iff]
  constructor
  · exact hmax
  · linarith

theorem refill_strict_anti (cfg : RateLimitConfig) (entry : RateLimitEntry)
    (now : ℕ) (hclock : now < entry.lastRefill) (hrate : 0 < cfg.refillRate) :
    (RateLimiter.refill cfg entry now).tokens < entry.tokens := by
  unfold RateLimiter.refill
  have hdelta : ((now : ℚ) - (entry.lastRefill : ℚ)) / 1000 < 0 := by
    have : (now : ℚ) < (entry.lastRefill : ℚ) := by exact_mod_cast hclock
    have h2 : (now : ℚ) - (entry.lastRefill : ℚ) < 0 := by linarith
    have h3 : (0 : ℚ) < 1000 := by norm_num
    exact div_neg_of_neg_of_pos h2 h3
  have hadd : ((now : ℚ) - (entry.lastRefill : ℚ)) / 1000 * cfg.refillRate < 0 :=
    mul_neg_of_neg_of_pos hdelta hrate
  have hlt : entry.tokens + ((now : ℚ) - (entry.lastRefill : ℚ)) / 1000 * cfg.refillRate
      < entry.tokens := by linarith
  calc min cfg.maxTokens
        (entry.tokens + ((now : ℚ) - (entry.lastRefill : ℚ)) / 1000 * cfg.refillRate)
      ≤ entry.tokens + ((now : ℚ) - (entry.lastRefill : ℚ)) / 1000 * cfg.refillRate :=
        min_le_right _ _
    _ < entry.tokens := hlt

/-! ### Claim theorems: rate limiter -/

/-- C1: for a key that already has a bucket, a check made less than 500ms
after the last successful request is rejected with retryAfter = 1, does not
decrement the stored token count, and leaves the stored lastRequest
unchanged — regardless of how many tokens remain; the very first check for a
key (no bucket yet) is always allowed. Hypotheses: the clock has not gone
backward since the last refill, the refill rate is nonnegative, the bucket
respects the tokens ≤ maxTokens invariant, and the recorded lastRequest
timestamp is positive (a lastRequest of 0 is skipped by JS truthiness). -/
theorem check_burst_suppression :
    (∀ (cfg : RateLimitConfig) (now : ℕ),
      (RateLimiter.check cfg none now).1.allowed = true) ∧
    (∀ (cfg : RateLimitConfig) (entry : RateLimitEntry) (now t : ℕ),
      entry.lastRequest = some t → 0 < t →
      (now : ℤ) - (t : ℤ) < 500 →
      entry.lastRefill ≤ now → 0 ≤ cfg.refillRate →
      entry.tokens ≤ cfg.maxTokens →
      (RateLimiter.check cfg (some entry) now).1.allowed = false ∧
      (RateLimiter.check cfg (some entry) now).1.retryAfter = some 1 ∧
      entry.tokens ≤ (RateLimiter.check cfg (some entry) now).2.tokens ∧
      (RateLimiter.check cfg (some entry) now).2.lastRequest = entry.lastRequest) := by
  constructor
  · intro cfg now
    rfl
  · intro cfg entry now t hlr ht hlt hclock hrate hmax
    have hburst : burstHit (RateLimiter.refill cfg entry now).lastRequest now = true := by
      show burstHit entry.lastRequest now = true
      rw [hlr]
      unfold burstHit
      simp only [Bool.and_eq_true, bne_iff_ne, ne_eq, decide_eq_true_eq]
      exact ⟨Nat.pos_iff_ne_zero.mp ht, hlt⟩
    unfold RateLimiter.check
    simp only [hburst, if_true]
    exact ⟨trivial, trivial, refill_mono cfg entry now hclock hrate hmax, rfl⟩

/-- Witness for C1 at the default configuration: a bucket last used at time
1000 is rejected at time 1200 with its tokens and lastRequest intact. -/
theorem check_burst_suppression_witness :
    (RateLimiter.check DEFAULT_CONFIG
        (some { tokens := 5, lastRefill := 1000, lastRequest := some 1000 })
        1200).1.allowed = false ∧
    (RateLimiter.check DEFAULT_CONFIG
        (some { tokens := 5, lastRefill := 1000, lastRequest := some 1000 })
        1200).1.retryAfter = some 1 ∧
    (5 : ℚ) ≤ (RateLimiter.check DEFAULT_CONFIG
        (some { tokens := 5, lastRefill := 1000, lastRequest := some 1000 })
        1200).2.tokens ∧
    (RateLimiter.check DEFAULT_CONFIG
        (some { tokens := 5, lastRefill := 1000, lastRequest := some 1000 })
        1200).2.lastRequest = some 1000 :=
  check_burst_suppression.2 DEFAULT_CONFIG
    { tokens := 5, lastRefill := 1000, lastRequest := some 1000 } 1200 1000
    rfl (by norm_num) (by norm_num) (by norm_num) (by norm_num [DEFAULT_CONFIG])
    (by norm_num [DEFAULT_CONFIG])

/-- C6 counterexample: the elapsed-time computation in the refill step does
NOT clamp negative deltas. Concretely, for a bucket created at time 1000
(tokens 9 after the first request), a check at time 600 (clock went backward
400ms) runs the refill with timePassed = -0.4s and strictly decreases the
stored token count, from 9 to 9 - 0.4 * 0.167 = 8.9332. -/
theorem refill_clock_regression_cex :
    (RateLimiter.refill DEFAULT_CONFIG
        { tokens := 9, lastRefill := 1000, lastRequest := some 1000 } 600).tokens
      < 9 ∧
    (RateLimiter.check DEFAULT_CONFIG
        (some { tokens := 9, lastRefill := 1000, lastRequest := some 1000 })
        600).2.tokens < 9 := by
  constructor
  · norm_num [RateLimiter.refill, DEFAULT_CONFIG, min_def]
  · norm_num [RateLimiter.check, RateLimiter.refill, burstHit, DEFAULT_CONFIG,
      min_def, MIN_REQUEST_INTERVAL]

/-- C6 amended: the refill computation does not clamp negative elapsed-time
deltas. When the clock goes backward (now < lastRefill) and the refill rate
is positive, the refill strictly decreases the stored token count of a bucket
satisfying tokens ≤ maxTokens; only when the clock is monotone
(lastRefill ≤ now) is the stored token count never decreased by the refill. -/
theorem refill_no_negative_clamp :
    (∀ (cfg : RateLimitConfig) (entry : RateLimitEntry) (now : ℕ),
      now < entry.lastRefill → 0 < cfg.refillRate →
      (RateLimiter.refill cfg entry now).tokens < entry.tokens) ∧
    (∀ (cfg : RateLimitConfig) (entry : RateLimitEntry) (now : ℕ),
      entry.lastRefill ≤ now → 0 ≤ cfg.refillRate →
      entry.tokens ≤ cfg.maxTokens →
      entry.tokens ≤ (RateLimiter.refill cfg entry now).tokens) :=
  ⟨fun cfg entry now h1 h2 => refill_strict_anti cfg entry now h1 h2,
   fun cfg entry now h1 h2 h3 => refill_mono cfg entry now h1 h2 h3⟩

/-- Witness for the amended C6: the default configuration decreases a bucket
of 9 tokens on a backward clock step and does not decrease it on a forward
one. -/
theorem refill_no_negative_clamp_witness :
    (RateLimiter.refill DEFAULT_CONFIG
        { tokens := 9, lastRefill := 1000, lastRequest := some 1000 } 600).tokens
      < 9 ∧
    (9 : ℚ) ≤ (RateLimiter.refill DEFAULT_CONFIG
        { tokens := 9, lastRefill := 1000, lastRequest := some 1000 } 1600).tokens :=
  ⟨refill_no_negative_clamp.1 DEFAULT_CONFIG
      { tokens := 9, lastRefill := 1000, lastRequest := some 1000 } 600
      (by norm_num) (by norm_num [DEFAULT_CONFIG]),
   refill_no_negative_clamp.2 DEFAULT_CONFIG
      { tokens := 9, lastRefill := 1000, lastRequest := some 1000 } 1600
      (by norm_num) (by norm_num [DEFAULT_CONFIG]) (by norm_num [DEFAULT_CONFIG])⟩

/-! ## Bounded LRU cache (src/lib/cache/lru-cache.ts)

The JS Map is kept in insertion order with the least-recently-used entry
first; `get` re-inserts at the tail, so the list order is the recency
order. Each operation returns its JS return value, the successor state and
the list of `onEvict(key, value)` invocations it makes, in call order. -/

/-- A stored value together with its insert/refresh time (interface
CacheEntry). -/
structure CacheEntry (V : Type) where
  value : V
  timestamp : ℕ
deriving Repr, DecidableEq

/-- The LRUCache state: the backing map plus the constructor options
`maxSize` and `ttl` (`options.ttl ?? null` is an `Option`). -/
structure LRUCache (V : Type) where
  cache : List (String × CacheEntry V)
  maxSize : ℕ
  ttl : Option ℕ
deriving Repr, DecidableEq

/-- A freshly constructed cache. -/
def LRUCache.empty (V : Type) (maxSize : ℕ) (ttl : Option ℕ) : LRUCache V :=
  { cache := [], maxSize := maxSize, ttl := ttl }

/-- The staleness test `this.ttl && Date.now() - entry.timestamp > this.ttl`
from LRUCache.get: JS truthiness disables the check when ttl is null or 0. -/
def isExpired (ttl : Option ℕ) (now ts : ℕ) : Bool :=
  match ttl with
  | none => false
  | some T => T != 0 && decide ((now : ℤ) - (ts : ℤ) > (T : ℤ))

/-- LRUCache.get: a miss returns undefined; an expired hit is removed via
`this.delete(key)` (which fires onEvict) and returns undefined; a live hit is
moved to the tail of the map with a refreshed timestamp and its value
returned. -/
def LRUCache.get (c : LRUCache V) (key : String) (now : ℕ) :
    Option V × LRUCache V × List (String × V) :=
  match mapGet c.cache key with
  | none => (none, c, [])
  | some entry =>
    if isExpired c.ttl now entry.timestamp then
      (none, { c with cache := mapDelete c.cache key }, [(key, entry.value)])
    else
      (some entry.value,
       { c with cache :=
          mapSet (mapDelete c.cache key) key { entry with timestamp := now } },
       [])

/-- LRUCache.set: an existing key is deleted from the raw map (no onEvict)
and re-inserted at the tail; otherwise, at capacity, the first map entry is
evicted (with onEvict) before inserting. -/
def LRUCache.set (c : LRUCache V) (key : String) (v : V) (now : ℕ) :
    LRUCache V × List (String × V) :=
  if mapHas c.cache key then
    ({ c with cache :=
        mapSet (mapDelete c.cache key) key { value := v, timestamp := now } }, [])
  else if c.cache.length ≥ c.maxSize then
    match c.cache.head? with
    | none =>
      ({ c with cache := mapSet c.cache key { value := v, timestamp := now } }, [])
    | some p =>
      ({ c with cache :=
          mapSet (mapDelete c.cache p.1) key { value := v, timestamp := now } },
       [(p.1, p.2.value)])
  else
    ({ c with cache := mapSet c.cache key { value := v, timestamp := now } }, [])

/-- LRUCache.delete: fires onEvict for a present key, then removes it; the
returned Bool is the raw `Map.delete` result. -/
def LRUCache.delete (c : LRUCache V) (key : String) :
    Bool × LRUCache V × List (String × V) :=
  match mapGet c.cache key with
  | some entry =>
    (true, { c with cache := mapDelete c.cache key }, [(key, entry.value)])
  | none => (false, c, [])

/-- LRUCache.has delegates to get: `this.get(key) !== undefined`, including
all of get's side effects. -/
def LRUCache.has (c : LRUCache V) (key : String) (now : ℕ) :
    Bool × LRUCache V × List (String × V) :=
  ((c.get key now).1.isSome, (c.get key now).2.1, (c.get key now).2.2)

/-- LRUCache.clear: fires onEvict for every entry (in map order), then
empties the map. -/
def LRUCache.clear (c : LRUCache V) : LRUCache V × List (String × V) :=
  ({ c with cache := [] }, c.cache.map (fun p => (p.1, p.2.value)))

/-- The expiry test used by LRUCache.prune once `!this.ttl` has been ruled
out. -/
def pruneExpired (T : ℤ) (now : ℕ) (p : String × CacheEntry V) : Bool :=
  decide ((now : ℤ) - (p.2.timestamp : ℤ) > T)

/-- LRUCache.prune: with a truthy ttl, every stale entry is removed via
`this.delete` (firing onEvict) and the number of removals returned.
Deleting the entry under iteration does not disturb JS Map iteration, and
each `this.delete(key)` removes the single entry carrying that key, so on
a key-unique map the sweep is the filter below. -/
def LRUCache.prune (c : LRUCache V) (now : ℕ) :
    ℕ × LRUCache V × List (String × V) :=
  match c.ttl with
  | none => (0, c, [])
  | some T =>
    if T = 0 then (0, c, [])
    else
      ((c.cache.filter (pruneExpired (T : ℤ) now)).length,
       { c with cache := c.cache.filter (fun p => !pruneExpired (T : ℤ) now p) },
       (c.cache.filter (pruneExpired (T : ℤ) now)).map (fun p => (p.1, p.2.value)))

/-- One public cache operation with the Date.now() value it observes. -/
inductive CacheOp (V : Type) where
  | get (k : String) (now : ℕ)
  | set (k : String) (v : V) (now : ℕ)
  | has (k : String) (now : ℕ)
  | del (k : String)
  | clear
  | prune (now : ℕ)

/-- State reached after one operation. -/
def LRUCache.applyOp (c : LRUCache V) : CacheOp V → LRUCache V
  | .get k now => (c.get k now).2.1
  | .set k v now => (c.set k v now).1
  | .has k now => (c.has k now).2.1
  | .del k => (c.delete k).2.1
  | .clear => c.clear.1
  | .prune now => (c.prune now).2.1

/-- State reached after a sequence of operations. -/
def LRUCache.runOps (c : LRUCache V) (ops : List (CacheOp V)) : LRUCache V :=
  ops.foldl LRUCache.applyOp c

/-! ### Map model lemmas -/

theorem mapGet_mapDelete_self (m : List (String × α)) (k : String) :
    mapGet (mapDelete m k) k = none := by
  unfold mapGet mapDelete
  rw [Option.map_eq_none']
  apply List.find?_eq_none.mpr
  intro p hp
  have h := (List.mem_filter.mp hp).2
  simpa using h

theorem mapHas_mapDelete_self (m : List (String × α)) (k : String) :
    mapHas (mapDelete m k) k = false := by
  unfold mapHas
  rw [mapGet_mapDelete_self]
  rfl

theorem mapSet_of_not_has (m : List (String × α)) (k : String) (v : α)
    (h : mapHas m k = false) : mapSet m k v = m ++ [(k, v)] := by
  unfold mapSet
  rw [h]
  simp

theorem mapSet_after_delete (m : List (String × α)) (k : String) (v : α) :
    mapSet (mapDelete m k) k v = mapDelete m k ++ [(k, v)] :=
  mapSet_of_not_has _ _ _ (mapHas_mapDelete_self m k)

theorem length_mapDelete_le (m : List (String × α)) (k : String) :
    (mapDelete m k).length ≤ m.length :=
  List.length_filter_le _ _

theorem length_mapDelete_lt_of_has (m : List (String × α)) (k : String)
    (h : mapHas m k = true) : (mapDelete m k).length < m.length := by
  unfold mapHas mapGet at h
  rw [Option.isSome_map'] at h
  rw [List.find?_isSome] at h
  obtain ⟨p, hp, hpk⟩ := h
  unfold mapDelete
  apply List.length_filter_lt_length_iff_exists.mpr
  exact ⟨p, hp, by simpa using hpk⟩

theorem length_mapSet_of_has (m : List (String × α)) (k : String) (v : α)
    (h : mapHas m k = true) : (mapSet m k v).length = m.length := by
  unfold mapSet
  rw [h]
  simp

theorem mapDelete_cons_head (p : String × α) (rest : List (String × α))
    (hnodup : ((p :: rest).map Prod.fst).Nodup) :
    mapDelete (p :: rest) p.1 = rest := by
  unfold mapDelete
  rw [List.filter_cons_of_neg (by simp)]
  apply List.filter_eq_self.mpr
  intro q hq
  have hne : q.1 ≠ p.1 := by
    rw [List.map_cons, List.nodup_cons] at hnodup
    intro hcontr
    exact hnodup.1 (hcontr ▸ List.mem_map_of_mem Prod.fst hq)
  simpa using hne

theorem mapHas_cons (p : String × α) (m : List (String × α)) (k : String) :
    mapHas (p :: m) k = (p.1 == k || mapHas m k) := by
  unfold mapHas mapGet
  rw [List.find?_cons]
  cases h : p.1 == k <;> simp [h]

theorem mapHas_eq_false_iff (m : List (String × α)) (k : String) :
    mapHas m k = false ↔ ∀ p ∈ m, p.1 ≠ k := by
  unfold mapHas mapGet
  simp [List.find?_eq_none]

theorem mapHas_mapDelete_of_not_has (m : List (String × α)) (j k : String)
    (h : mapHas m k = false) : mapHas (mapDelete m j) k = false := by
  rw [mapHas_eq_false_iff] at h ⊢
  intro p hp
  exact h p (List.mem_filter.mp hp).1

/-! ### LRU cache invariant lemmas -/

theorem get_fields (c : LRUCache V) (k : String) (now : ℕ) :
    ((c.get k now).2.1).maxSize = c.maxSize ∧ ((c.get k now).2.1).ttl = c.ttl := by
  unfold LRUCache.get
  cases mapGet c.cache k with
  | none => exact ⟨rfl, rfl⟩
  | some e => dsimp only; split <;> exact ⟨rfl, rfl⟩

theorem set_fields (c : LRUCache V) (k : String) (v : V) (now : ℕ) :
    ((c.set k v now).1).maxSize = c.maxSize ∧ ((c.set k v now).1).ttl = c.ttl := by
  unfold LRUCache.set
  split
  · exact ⟨rfl, rfl⟩
  · split
    · split <;> exact ⟨rfl, rfl⟩
    · exact ⟨rfl, rfl⟩

theorem applyOp_fields (c : LRUCache V) (op : CacheOp V) :
    (c.applyOp op).maxSize = c.maxSize ∧ (c.applyOp op).ttl = c.ttl := by
  cases op with
  | get k now => exact get_fields c k now
  | set k v now => exact set_fields c k v now
  | has k now => exact get_fields c k now
  | del k =>
    simp only [LRUCache.applyOp, LRUCache.delete]
    cases mapGet c.cache k with
    | none => exact ⟨rfl, rfl⟩
    | some e => exact ⟨rfl, rfl⟩
  | clear => exact ⟨rfl, rfl⟩
  | prune now =>
    simp only [LRUCache.applyOp, LRUCache.prune]
    split
    · exact ⟨rfl, rfl⟩
    · split <;> exact ⟨rfl, rfl⟩

theorem get_size_le (c : LRUCache V) (k : String) (now : ℕ)
    (hsz : c.cache.length ≤ c.maxSize) :
    ((c.get k now).2.1).cache.length ≤ c.maxSize := by
  unfold LRUCache.get
  cases hm : mapGet c.cache k with
  | none => exact hsz
  | some e =>
    dsimp only
    split
    · exact le_trans (length_mapDelete_le _ _) hsz
    · dsimp only
      rw [mapSet_after_delete, List.length_append]
      have hhas : mapHas c.cache k = true := by
        unfold mapHas
        rw [hm]
        rfl
      have hlt := length_mapDelete_lt_of_has c.cache k hhas
      simp only [List.length_singleton]
      omega

theorem set_size_le (c : LRUCache V) (k : String) (v : V) (now : ℕ)
    (hmax : 1 ≤ c.maxSize) (hsz : c.cache.length ≤ c.maxSize) :
    ((c.set k v now).1).cache.length ≤ c.maxSize := by
  unfold LRUCache.set
  split
  · dsimp only
    rw [mapSet_after_delete, List.length_append]
    rename_i hhas
    have hlt := length_mapDelete_lt_of_has c.cache k hhas
    simp only [List.length_singleton]
    omega
  · rename_i hhas
    rw [Bool.not_eq_true] at hhas
    split
    · rename_i hcap
      cases hc : c.cache with
      | nil =>
        simp only [hc, List.head?_nil]
        rw [mapSet_of_not_has _ _ _ (by rw [hc] at hhas; exact hhas)]
        simp only [hc, List.nil_append, List.length_singleton]
        exact hmax
      | cons p rest =>
        simp only [hc, List.head?_cons]
        rw [mapSet_of_not_has _ _ _
          (mapHas_mapDelete_of_not_has _ _ _ (by rw [← hc]; exact hhas))]
        rw [List.length_append, List.length_singleton]
        have h1 : (mapDelete (p :: rest) p.1).length ≤ rest.length := by
          unfold mapDelete
          rw [List.filter_cons_of_neg (by simp)]
          exact List.length_filter_le _ _
        have h2 : c.cache.length = rest.length + 1 := by rw [hc]; rfl
        omega
    · dsimp only
      rw [mapSet_of_not_has _ _ _ hhas, List.length_append, List.length_singleton]
      rename_i hcap
      omega

theorem applyOp_size_le (c : LRUCache V) (op : CacheOp V)
    (hmax : 1 ≤ c.maxSize) (hsz : c.cache.length ≤ c.maxSize) :
    (c.applyOp op).cache.length ≤ c.maxSize := by
  cases op with
  | get k now => exact get_size_le c k now hsz
  | set k v now => exact set_size_le c k v now hmax hsz
  | has k now => exact get_size_le c k now hsz
  | del k =>
    simp only [LRUCache.applyOp, LRUCache.delete]
    cases mapGet c.cache k with
    | none => exact hsz
    | some e => exact le_trans (length_mapDelete_le _ _) hsz
  | clear => exact le_trans (Nat.zero_le _) hmax
  | prune now =>
    simp only [LRUCache.applyOp, LRUCache.prune]
    split
    · exact hsz
    · split
      · exact hsz
      · exact le_trans (List.length_filter_le _ _) hsz

theorem runOps_invariant (ops : List (CacheOp V)) (c : LRUCache V)
    (hmax : 1 ≤ c.maxSize) (hsz : c.cache.length ≤ c.maxSize) :
    (c.runOps ops).maxSize = c.maxSize ∧
    (c.runOps ops).cache.length ≤ c.maxSize := by
  induction ops generalizing c with
  | nil => exact ⟨rfl, hsz⟩
  | cons op ops ih =>
    have hfields := applyOp_fields c op
    have hstep := applyOp_size_le c op hmax hsz
    have := ih (c.applyOp op) (hfields.1 ▸ hmax) (hfields.1 ▸ hstep)
    exact ⟨this.1.trans hfields.1, hfields.1 ▸ this.2⟩

theorem length_filter_ne_of_nodup (m : List (String × α)) (k : String)
    (hnodup : (m.map Prod.fst).Nodup) (hhas : mapHas m k = true) :
    (m.filter (fun p => p.1 != k)).length + 1 = m.length := by
  induction m with
  | nil => simp [mapHas, mapGet] at hhas
  | cons p m ih =>
    rw [List.map_cons, List.nodup_cons] at hnodup
    rw [mapHas_cons] at hhas
    by_cases h : p.1 = k
    · rw [List.filter_cons_of_neg (by simp [h])]
      have hall : ∀ q ∈ m, (q.1 != k) = true := by
        intro q hq
        have hne : q.1 ≠ k := by
          intro hqk
          exact hnodup.1 (h ▸ hqk ▸ List.mem_map_of_mem Prod.fst hq)
        simpa using hne
      rw [List.filter_eq_self.mpr hall]
      rfl
    · rw [List.filter_cons_of_pos (by simpa using h)]
      have hhas2 : mapHas m k = true := by
        rcases Bool.or_eq_true_iff.mp hhas with h1 | h1
        · exact absurd (by simpa using h1) h
        · exact h1
      have := ih hnodup.2 hhas2
      simp only [List.length_cons]
      omega

theorem set_existing_length (c : LRUCache V) (k : String) (v : V) (now : ℕ)
    (hnodup : (c.cache.map Prod.fst).Nodup) (hhas : mapHas c.cache k = true) :
    (c.set k v now).1.cache.length = c.cache.length := by
  unfold LRUCache.set
  rw [if_pos hhas]
  dsimp only
  rw [mapSet_after_delete, List.length_append, List.length_singleton]
  exact length_filter_ne_of_nodup c.cache k hnodup hhas

theorem set_evicts_head (c : LRUCache V) (k : String) (v : V) (now : ℕ)
    (p : String × CacheEntry V) (rest : List (String × CacheEntry V))
    (hc : c.cache = p :: rest) (hhas : mapHas c.cache k = false)
    (hlen : c.cache.length = c.maxSize)
    (hnodup : (c.cache.map Prod.fst).Nodup) :
    (c.set k v now).1.cache = rest ++ [(k, { value := v, timestamp := now })] ∧
    (c.set k v now).2 = [(p.1, p.2.value)] := by
  have hcap : c.cache.length ≥ c.maxSize := le_of_eq hlen.symm
  unfold LRUCache.set
  rw [if_neg (by simp [hhas]), if_pos hcap, hc]
  simp only [List.head?_cons]
  have hdel : mapDelete (p :: rest) p.1 = rest :=
    mapDelete_cons_head p rest (hc ▸ hnodup)
  have hrest : mapHas rest k = false := by
    rw [hc, mapHas_cons] at hhas
    exact (Bool.or_eq_false_iff.mp hhas).2
  constructor
  · show mapSet (mapDelete (p :: rest) p.1) k { value := v, timestamp := now } = _
    rw [hdel, mapSet_of_not_has _ _ _ hrest]
  · trivial

/-! ### Claim theorems: LRU cache capacity -/

/-- C2: for every LRUCache with maxSize ≥ 1, after any sequence of
get/set/has/delete/clear/prune operations starting from a fresh cache the
number of live entries stays ≤ maxSize; a set of a new key at capacity
evicts exactly the first (least-recently-used) map entry — under sorted
recency timestamps, the entry whose last access/insert time is oldest —
before appending the new entry; and a set of an existing key leaves the
entry count unchanged. -/
theorem lruCache_capacity_invariant :
    (∀ (V : Type) (maxSize : ℕ) (ttl : Option ℕ) (ops : List (CacheOp V)),
      1 ≤ maxSize →
      ((LRUCache.empty V maxSize ttl).runOps ops).cache.length ≤ maxSize) ∧
    (∀ (V : Type) (c : LRUCache V) (k : String) (v : V) (now : ℕ)
      (p : String × CacheEntry V) (rest : List (String × CacheEntry V)),
      c.cache = p :: rest → mapHas c.cache k = false →
      c.cache.length = c.maxSize → (c.cache.map Prod.fst).Nodup →
      (c.set k v now).1.cache = rest ++ [(k, { value := v, timestamp := now })] ∧
      (c.set k v now).2 = [(p.1, p.2.value)] ∧
      (List.Pairwise (fun a b => a.2.timestamp ≤ b.2.timestamp) c.cache →
        ∀ q ∈ c.cache, p.2.timestamp ≤ q.2.timestamp)) ∧
    (∀ (V : Type) (c : LRUCache V) (k : String) (v : V) (now : ℕ),
      (c.cache.map Prod.fst).Nodup → mapHas c.cache k = true →
      (c.set k v now).1.cache.length = c.cache.length) := by
  refine ⟨?_, ?_, ?_⟩
  · intro V maxSize ttl ops hmax
    exact (runOps_invariant ops (LRUCache.empty V maxSize ttl) hmax
      (Nat.zero_le _)).2
  · intro V c k v now p rest hc hhas hlen hnodup
    obtain ⟨h1, h2⟩ := set_evicts_head c k v now p rest hc hhas hlen hnodup
    refine ⟨h1, h2, ?_⟩
    intro hpair q hq
    rw [hc] at hpair hq
    rcases List.mem_cons.mp hq with h | h
    · rw [h]
    · exact (List.pairwise_cons.mp hpair).1 q h
  · intro V c k v now hnodup hhas
    exact set_existing_length c k v now hnodup hhas

/-- Witness for C2 on concrete data: three inserts into a 2-entry cache keep
the size at 2; inserting a third key into a full cache of keys a, b evicts
exactly the entry for a; and re-setting key a leaves the count at 2. -/
theorem lruCache_capacity_invariant_witness :
    ((LRUCache.empty ℕ 2 none).runOps
        [CacheOp.set "a" 1 0, CacheOp.set "b" 2 1,
         CacheOp.set "c" 3 2]).cache.length ≤ 2 ∧
    (((⟨[("a", ⟨1, 0⟩), ("b", ⟨2, 1⟩)], 2, none⟩ : LRUCache ℕ).set "c" 3 2).1.cache
        = [("b", ⟨2, 1⟩), ("c", ⟨3, 2⟩)] ∧
      ((⟨[("a", ⟨1, 0⟩), ("b", ⟨2, 1⟩)], 2, none⟩ : LRUCache ℕ).set "c" 3 2).2
        = [("a", 1)] ∧
      (List.Pairwise (fun a b => a.2.timestamp ≤ b.2.timestamp)
          ([("a", ⟨1, 0⟩), ("b", ⟨2, 1⟩)] : List (String × CacheEntry ℕ)) →
        ∀ q ∈ ([("a", ⟨1, 0⟩), ("b", ⟨2, 1⟩)] : List (String × CacheEntry ℕ)),
          (0 : ℕ) ≤ q.2.timestamp)) ∧
    ((⟨[("a", ⟨1, 0⟩), ("b", ⟨2, 1⟩)], 2, none⟩ : LRUCache ℕ).set "a" 9 5).1.cache.length
      = 2 :=
  ⟨lruCache_capacity_invariant.1 ℕ 2 none
      [CacheOp.set "a" 1 0, CacheOp.set "b" 2 1, CacheOp.set "c" 3 2]
      (by decide),
   lruCache_capacity_invariant.2.1 ℕ
      ⟨[("a", ⟨1, 0⟩), ("b", ⟨2, 1⟩)], 2, none⟩ "c" 3 2 ("a", ⟨1, 0⟩)
      [("b", ⟨2, 1⟩)] rfl (by decide) rfl (by decide),
   lruCache_capacity_invariant.2.2 ℕ
      ⟨[("a", ⟨1, 0⟩), ("b", ⟨2, 1⟩)], 2, none⟩ "a" 9 5 (by decide) (by decide)⟩

/-! ### Claim theorems: TTL expiry and onEvict -/

theorem isExpired_eq_false (T now ts : ℕ) (h : now ≤ ts + T) :
    isExpired (some T) now ts = false := by
  have h2 : ¬((now : ℤ) - (ts : ℤ) > (T : ℤ)) := by omega
  simp only [isExpired]
  simp [h2]

theorem isExpired_eq_true (T now ts : ℕ) (hT : 1 ≤ T) (h : ts + T < now) :
    isExpired (some T) now ts = true := by
  have h1 : T ≠ 0 := by omega
  have h2 : (now : ℤ) - (ts : ℤ) > (T : ℤ) := by omega
  simp only [isExpired]
  simp [h1, h2]

/-- C3 counterexample: with ttl = 5 an entry inserted at time 0 is still
returned by a get at time exactly 5 (= t0 + T), because the staleness test
`now - timestamp > ttl` is strict; the claim requires it to be absent at any
time ≥ t0 + T. -/
theorem lruCache_ttl_boundary_cex :
    (((((LRUCache.empty ℕ 10 (some 5)).set "k" 7 0).1).get "k" 5).1 = some 7) ∧
    (((((LRUCache.empty ℕ 10 (some 5)).set "k" 7 0).1).get "k" 5).2.2 = []) := by
  constructor <;> rfl

/-- C3 amended: for an LRUCache with ttl = T ≥ 1 (the code disables the TTL
check entirely for ttl = 0), an entry with timestamp t0 is returned by get at
any time ≤ t0 + T, and for any get at time > t0 + T it is treated as absent,
physically deleted, and reported to onEvict. -/
theorem lruCache_ttl_expiry :
    ∀ (V : Type) (c : LRUCache V) (k : String) (e : CacheEntry V) (T now : ℕ),
      c.ttl = some T → 1 ≤ T → mapGet c.cache k = some e →
      (now ≤ e.timestamp + T → (c.get k now).1 = some e.value) ∧
      (e.timestamp + T < now →
        (c.get k now).1 = none ∧
        mapGet (c.get k now).2.1.cache k = none ∧
        (c.get k now).2.2 = [(k, e.value)]) := by
  intro V c k e T now httl hT hm
  constructor
  · intro hlive
    have hexp := isExpired_eq_false T now e.timestamp hlive
    simp [LRUCache.get, hm, httl, hexp]
  · intro hstale
    have hexp := isExpired_eq_true T now e.timestamp hT hstale
    simp [LRUCache.get, hm, httl, hexp, mapGet_mapDelete_self]

/-- Witness for the amended C3: ttl 5, entry inserted at 0; a get at time 3
returns it, a get at time 6 deletes it and fires onEvict. -/
theorem lruCache_ttl_expiry_witness :
    ((⟨[("k", ⟨7, 0⟩)], 10, some 5⟩ : LRUCache ℕ).get "k" 3).1 = some 7 ∧
    (((⟨[("k", ⟨7, 0⟩)], 10, some 5⟩ : LRUCache ℕ).get "k" 6).1 = none ∧
      mapGet ((⟨[("k", ⟨7, 0⟩)], 10, some 5⟩ : LRUCache ℕ).get "k" 6).2.1.cache "k"
        = none ∧
      ((⟨[("k", ⟨7, 0⟩)], 10, some 5⟩ : LRUCache ℕ).get "k" 6).2.2 = [("k", 7)]) :=
  ⟨(lruCache_ttl_expiry ℕ ⟨[("k", ⟨7, 0⟩)], 10, some 5⟩ "k" ⟨7, 0⟩ 5 3
      rfl (by decide) (by decide)).1 (by decide),
   (lruCache_ttl_expiry ℕ ⟨[("k", ⟨7, 0⟩)], 10, some 5⟩ "k" ⟨7, 0⟩ 5 6
      rfl (by decide) (by decide)).2 (by decide)⟩

/-- C4 counterexample: an explicit delete of a present key DOES fire onEvict
(and clear fires it for every remaining entry), while the claim says onEvict
never fires for delete- or clear-triggered removals. -/
theorem lruCache_delete_fires_onEvict_cex :
    ((((LRUCache.empty ℕ 10 none).set "a" 1 0).1).delete "a").2.2 = [("a", 1)] ∧
    ((((LRUCache.empty ℕ 10 none).set "a" 1 0).1).clear).2 = [("a", 1)] := by
  constructor <;> rfl

/-- C4 amended: onEvict fires synchronously for every capacity-based
eviction (set of a new key at capacity) and every TTL-based eviction (lazy
expiry on get, and each stale entry removed by prune), it does not fire when
get or set touch a live entry, and — contrary to the claim — it also fires
for an explicit delete(key) of a present key (not of an absent one) and once
per remaining entry on clear(). -/
theorem lruCache_onEvict_rule :
    (∀ (V : Type) (c : LRUCache V) (k : String) (v : V) (now : ℕ)
      (p : String × CacheEntry V) (rest : List (String × CacheEntry V)),
      c.cache = p :: rest → mapHas c.cache k = false →
      c.cache.length = c.maxSize → (c.cache.map Prod.fst).Nodup →
      (c.set k v now).2 = [(p.1, p.2.value)]) ∧
    (∀ (V : Type) (c : LRUCache V) (k : String) (e : CacheEntry V) (now : ℕ),
      mapGet c.cache k = some e →
      (isExpired c.ttl now e.timestamp = true →
        (c.get k now).2.2 = [(k, e.value)]) ∧
      (isExpired c.ttl now e.timestamp = false → (c.get k now).2.2 = [])) ∧
    (∀ (V : Type) (c : LRUCache V) (T now : ℕ) (p : String × CacheEntry V),
      c.ttl = some T → T ≠ 0 → p ∈ c.cache → pruneExpired (T : ℤ) now p = true →
      (p.1, p.2.value) ∈ (c.prune now).2.2) ∧
    (∀ (V : Type) (c : LRUCache V) (k : String) (v : V) (now : ℕ),
      mapHas c.cache k = true → (c.set k v now).2 = []) ∧
    (∀ (V : Type) (c : LRUCache V) (k : String) (e : CacheEntry V),
      mapGet c.cache k = some e → (c.delete k).2.2 = [(k, e.value)]) ∧
    (∀ (V : Type) (c : LRUCache V) (k : String),
      mapGet c.cache k = none → (c.delete k).2.2 = []) ∧
    (∀ (V : Type) (c : LRUCache V),
      c.clear.2 = c.cache.map (fun p => (p.1, p.2.value))) := by
  refine ⟨?_, ?_, ?_, ?_, ?_, ?_, ?_⟩
  · intro V c k v now p rest hc hhas hlen hnodup
    exact (set_evicts_head c k v now p rest hc hhas hlen hnodup).2
  · intro V c k e now hm
    constructor
    · intro hexp
      simp [LRUCache.get, hm, hexp]
    · intro hexp
      simp [LRUCache.get, hm, hexp]
  · intro V c T now p httl hT hp hexp
    simp only [LRUCache.prune, httl]
    rw [if_neg hT]
    exact List.mem_map_of_mem _ (List.mem_filter.mpr ⟨hp, hexp⟩)
  · intro V c k v now hhas
    unfold LRUCache.set
    rw [if_pos hhas]
  · intro V c k e hm
    unfold LRUCache.delete
    rw [hm]
  · intro V c k hm
    unfold LRUCache.delete
    rw [hm]
  · intro V c
    rfl

/-- Witness for the amended C4 across its seven cases, on small concrete
caches. -/
theorem lruCache_onEvict_rule_witness :
    ((⟨[("a", ⟨1, 0⟩)], 1, none⟩ : LRUCache ℕ).set "b" 2 1).2 = [("a", 1)] ∧
    (((⟨[("a", ⟨1, 0⟩)], 1, some 5⟩ : LRUCache ℕ).get "a" 6).2.2 = [("a", 1)] ∧
      ((⟨[("a", ⟨1, 0⟩)], 1, some 5⟩ : LRUCache ℕ).get "a" 3).2.2 = []) ∧
    ("a", 1) ∈ ((⟨[("a", ⟨1, 0⟩)], 1, some 5⟩ : LRUCache ℕ).prune 6).2.2 ∧
    ((⟨[("a", ⟨1, 0⟩)], 1, none⟩ : LRUCache ℕ).set "a" 2 1).2 = [] ∧
    ((⟨[("a", ⟨1, 0⟩)], 1, none⟩ : LRUCache ℕ).delete "a").2.2 = [("a", 1)] ∧
    ((⟨[("a", ⟨1, 0⟩)], 1, none⟩ : LRUCache ℕ).delete "z").2.2 = [] ∧
    (⟨[("a", ⟨1, 0⟩)], 1, none⟩ : LRUCache ℕ).clear.2 = [("a", 1)] :=
  ⟨lruCache_onEvict_rule.1 ℕ ⟨[("a", ⟨1, 0⟩)], 1, none⟩ "b" 2 1 ("a", ⟨1, 0⟩) []
      rfl (by decide) rfl (by decide),
   ⟨(lruCache_onEvict_rule.2.1 ℕ ⟨[("a", ⟨1, 0⟩)], 1, some 5⟩ "a" ⟨1, 0⟩ 6
        (by decide)).1 (by decide),
    (lruCache_onEvict_rule.2.1 ℕ ⟨[("a", ⟨1, 0⟩)], 1, some 5⟩ "a" ⟨1, 0⟩ 3
        (by decide)).2 (by decide)⟩,
   lruCache_onEvict_rule.2.2.1 ℕ ⟨[("a", ⟨1, 0⟩)], 1, some 5⟩ 5 6 ("a", ⟨1, 0⟩)
      rfl (by decide) (by decide) (by decide),
   lruCache_onEvict_rule.2.2.2.1 ℕ ⟨[("a", ⟨1, 0⟩)], 1, none⟩ "a" 2 1 (by decide),
   lruCache_onEvict_rule.2.2.2.2.1 ℕ ⟨[("a", ⟨1, 0⟩)], 1, none⟩ "a" ⟨1, 0⟩
      (by decide),
   lruCache_onEvict_rule.2.2.2.2.2.1 ℕ ⟨[("a", ⟨1, 0⟩)], 1, none⟩ "z" (by decide),
   lruCache_onEvict_rule.2.2.2.2.2.2 ℕ ⟨[("a", ⟨1, 0⟩)], 1, none⟩⟩

/-- C10: has(key) delegates to get, so on a present live key it returns true
while moving the entry to the most-recently-used position with its timestamp
reset to now (firing nothing), and on a present expired key it returns false,
physically deletes the entry and fires onEvict. -/
theorem lruCache_has_side_effects :
    ∀ (V : Type) (c : LRUCache V) (k : String) (e : CacheEntry V) (now : ℕ),
      mapGet c.cache k = some e →
      (isExpired c.ttl now e.timestamp = false →
        (c.has k now).1 = true ∧
        (c.has k now).2.1.cache
          = mapDelete c.cache k ++ [(k, { value := e.value, timestamp := now })] ∧
        (c.has k now).2.2 = []) ∧
      (isExpired c.ttl now e.timestamp = true →
        (c.has k now).1 = false ∧
        (c.has k now).2.1.cache = mapDelete c.cache k ∧
        mapGet (c.has k now).2.1.cache k = none ∧
        (c.has k now).2.2 = [(k, e.value)]) := by
  intro V c k e now hm
  constructor
  · intro hexp
    simp [LRUCache.has, LRUCache.get, hm, hexp, mapSet_after_delete]
  · intro hexp
    simp [LRUCache.has, LRUCache.get, hm, hexp, mapGet_mapDelete_self]

/-- Witness for C10: ttl 5, entry for key a inserted at 0 ahead of key b; a
has at time 3 refreshes it to the tail with timestamp 3; a has at time 6
deletes it and fires onEvict. -/
theorem lruCache_has_side_effects_witness :
    (((⟨[("a", ⟨1, 0⟩), ("b", ⟨2, 1⟩)], 10, some 5⟩ : LRUCache ℕ).has "a" 3).1
        = true ∧
      ((⟨[("a", ⟨1, 0⟩), ("b", ⟨2, 1⟩)], 10, some 5⟩ : LRUCache ℕ).has "a" 3).2.1.cache
        = mapDelete [("a", ⟨1, 0⟩), ("b", ⟨2, 1⟩)] "a" ++ [("a", ⟨1, 3⟩)] ∧
      ((⟨[("a", ⟨1, 0⟩), ("b", ⟨2, 1⟩)], 10, some 5⟩ : LRUCache ℕ).has "a" 3).2.2
        = []) ∧
    (((⟨[("a", ⟨1, 0⟩), ("b", ⟨2, 1⟩)], 10, some 5⟩ : LRUCache ℕ).has "a" 6).1
        = false ∧
      ((⟨[("a", ⟨1, 0⟩), ("b", ⟨2, 1⟩)], 10, some 5⟩ : LRUCache ℕ).has "a" 6).2.1.cache
        = mapDelete [("a", ⟨1, 0⟩), ("b", ⟨2, 1⟩)] "a" ∧
      mapGet ((⟨[("a", ⟨1, 0⟩), ("b", ⟨2, 1⟩)], 10, some 5⟩ : LRUCache ℕ).has
          "a" 6).2.1.cache "a" = none ∧
      ((⟨[("a", ⟨1, 0⟩), ("b", ⟨2, 1⟩)], 10, some 5⟩ : LRUCache ℕ).has "a" 6).2.2
        = [("a", 1)]) :=
  ⟨(lruCache_has_side_effects ℕ ⟨[("a", ⟨1, 0⟩), ("b", ⟨2, 1⟩)], 10, some 5⟩
      "a" ⟨1, 0⟩ 3 (by decide)).1 (by decide),
   (lruCache_has_side_effects ℕ ⟨[("a", ⟨1, 0⟩), ("b", ⟨2, 1⟩)], 10, some 5⟩
      "a" ⟨1, 0⟩ 6 (by decide)).2 (by decide)⟩

/-! ## Session store (src/lib/cache/chat-cache.ts)

The upstream ChatSession handle and the history turns are opaque here, so
the state is parametrised by their types S and H. Each call's Date.now()
values are passed explicitly; within one `set` the eviction scan and the
insert observe the same `now`, as they do in one JS millisecond. -/

/-- Interface CachedSession. -/
structure CachedSession (S H : Type) where
  session : S
  lastAccessed : ℕ
  createdAt : ℕ
  messageCount : ℕ
  history : List H
deriving Repr, DecidableEq

/-- SessionCache state: the sessions map plus the config fields the claims
touch (cleanupInterval only drives the background timer). -/
structure SessionCache (S H : Type) where
  sessions : List (String × CachedSession S H)
  sessionTimeout : ℕ
  maxSessions : ℕ
deriving Repr, DecidableEq

/-- SessionCache.get: absent or expired (`now - lastAccessed >
sessionTimeout`, the latter deleting the entry) yields null; a live hit
bumps lastAccessed in place. -/
def SessionCache.get (st : SessionCache S H) (userId : String) (now : ℕ) :
    Option S × SessionCache S H :=
  match mapGet st.sessions userId with
  | none => (none, st)
  | some cached =>
    if (now : ℤ) - (cached.lastAccessed : ℤ) > (st.sessionTimeout : ℤ) then
      (none, { st with sessions := mapDelete st.sessions userId })
    else
      (some cached.session,
       { st with
         sessions := mapSet st.sessions userId { cached with lastAccessed := now } })

/-- The body of the `for (const [userId, cached] of this.sessions)` scan in
SessionCache.evictOldest: `oldestTime` starts at Date.now() and is only
replaced on a strictly smaller lastAccessed. -/
def scanStep (acc : ℕ × Option String) (p : String × CachedSession S H) :
    ℕ × Option String :=
  if p.2.lastAccessed < acc.1 then (p.2.lastAccessed, some p.1) else acc

/-- SessionCache.evictOldest: delete the scan's winner; `if (oldestId)` is
JS-truthy, so no eviction happens when the scan found nothing (every session
has lastAccessed ≥ now) or when the winning key is the empty string. -/
def SessionCache.evictOldest (st : SessionCache S H) (now : ℕ) :
    SessionCache S H :=
  match (st.sessions.foldl scanStep (now, none)).2 with
  | none => st
  | some oldestId =>
    if oldestId = "" then st
    else { st with sessions := mapDelete st.sessions oldestId }

/-- SessionCache.set: evict the oldest session when at capacity, then store
a fresh CachedSession for the user. -/
def SessionCache.set (st : SessionCache S H) (userId : String) (session : S)
    (initialHistory : List H) (now : ℕ) : SessionCache S H :=
  let st1 := if st.sessions.length ≥ st.maxSessions then st.evictOldest now else st
  { st1 with
    sessions := mapSet st1.sessions userId
      { session := session, lastAccessed := now, createdAt := now,
        messageCount := initialHistory.length, history := initialHistory } }

/-! ### Session store lemmas -/

theorem foldl_scanStep_stay (l : List (String × CachedSession S H))
    (acc1 : ℕ) (accOpt : Option String)
    (h : ∀ q ∈ l, ¬(q.2.lastAccessed < acc1)) :
    l.foldl scanStep (acc1, accOpt) = (acc1, accOpt) := by
  induction l with
  | nil => rfl
  | cons r l ih =>
    rw [List.foldl_cons]
    have hr := h r (List.mem_cons_self r l)
    simp only [scanStep]
    rw [if_neg hr]
    exact ih (fun q hq => h q (List.mem_cons_of_mem r hq))

theorem foldl_scanStep_min (l : List (String × CachedSession S H))
    (p : String × CachedSession S H) :
    ∀ (acc1 : ℕ) (accOpt : Option String),
    p ∈ l → p.2.lastAccessed < acc1 →
    (∀ q ∈ l, q.1 ≠ p.1 → p.2.lastAccessed < q.2.lastAccessed) →
    (l.map Prod.fst).Nodup →
    l.foldl scanStep (acc1, accOpt) = (p.2.lastAccessed, some p.1) := by
  induction l with
  | nil =>
    intro acc1 accOpt hmem
    exact absurd hmem (List.not_mem_nil p)
  | cons r l ih =>
    intro acc1 accOpt hmem hacc hmin hnodup
    rw [List.map_cons, List.nodup_cons] at hnodup
    rw [List.foldl_cons]
    rcases List.mem_cons.mp hmem with heq | hmem2
    · subst heq
      simp only [scanStep]
      rw [if_pos hacc]
      apply foldl_scanStep_stay
      intro q hq
      have hq1 : q.1 ≠ p.1 := fun hc =>
        hnodup.1 (hc ▸ List.mem_map_of_mem Prod.fst hq)
      have := hmin q (List.mem_cons_of_mem _ hq) hq1
      omega
    · have hr1 : r.1 ≠ p.1 := fun hc =>
        hnodup.1 (hc ▸ List.mem_map_of_mem Prod.fst hmem2)
      have hrla := hmin r (List.mem_cons_self r l) hr1
      have hmin2 : ∀ q ∈ l, q.1 ≠ p.1 → p.2.lastAccessed < q.2.lastAccessed :=
        fun q hq hq1 => hmin q (List.mem_cons_of_mem r hq) hq1
      simp only [scanStep]
      split
      · exact ih _ _ hmem2 hrla hmin2 hnodup.2
      · exact ih _ _ hmem2 hacc hmin2 hnodup.2

theorem evictOldest_removes_min (st : SessionCache S H) (now : ℕ)
    (p : String × CachedSession S H)
    (hmem : p ∈ st.sessions) (hkey : p.1 ≠ "")
    (hacc : p.2.lastAccessed < now)
    (hmin : ∀ q ∈ st.sessions, q.1 ≠ p.1 → p.2.lastAccessed < q.2.lastAccessed)
    (hnodup : (st.sessions.map Prod.fst).Nodup) :
    st.evictOldest now = { st with sessions := mapDelete st.sessions p.1 } := by
  unfold SessionCache.evictOldest
  rw [foldl_scanStep_min st.sessions p now none hmem hacc hmin hnodup]
  simp only
  rw [if_neg hkey]

theorem set_preserves_config (st : SessionCache S H) (userId : String) (s : S)
    (hist : List H) (now : ℕ) :
    (st.set userId s hist now).sessionTimeout = st.sessionTimeout ∧
    (st.set userId s hist now).maxSessions = st.maxSessions := by
  unfold SessionCache.set SessionCache.evictOldest
  dsimp only
  split
  · split
    · exact ⟨rfl, rfl⟩
    · split <;> exact ⟨rfl, rfl⟩
  · exact ⟨rfl, rfl⟩

theorem set_evicts_min (st : SessionCache S H) (userId : String) (s : S)
    (hist : List H) (now : ℕ) (p : String × CachedSession S H)
    (hcap : st.maxSessions ≤ st.sessions.length)
    (hmem : p ∈ st.sessions) (hkey : p.1 ≠ "") (hacc : p.2.lastAccessed < now)
    (hmin : ∀ q ∈ st.sessions, q.1 ≠ p.1 → p.2.lastAccessed < q.2.lastAccessed)
    (hnodup : (st.sessions.map Prod.fst).Nodup)
    (hfresh : mapHas st.sessions userId = false) :
    (st.set userId s hist now).sessions
      = mapDelete st.sessions p.1
        ++ [(userId, { session := s, lastAccessed := now, createdAt := now,
                       messageCount := hist.length, history := hist })] := by
  simp only [SessionCache.set]
  rw [if_pos hcap, evictOldest_removes_min st now p hmem hkey hacc hmin hnodup]
  dsimp only
  rw [mapSet_of_not_has _ _ _ (mapHas_mapDelete_of_not_has _ _ _ hfresh)]

/-! ### Claim theorems: session store -/

/-- C5 counterexample: with maxSessions = 1 and both sets in the same
millisecond (Date.now() = 5 for both), the eviction scan finds no session
with lastAccessed strictly below now, so nothing is evicted: session a
survives, get("a") still returns h1 = some 1, and the store holds 2 > 1
sessions. The claim requires get("a") to be absent after the second set. -/
theorem sessionCache_same_ms_no_eviction_cex :
    (((((⟨[], 1800000, 1⟩ : SessionCache ℕ ℕ).set "a" 1 [] 5).set "b" 2 [] 5).get
        "a" 5).1 = some 1) ∧
    ((((⟨[], 1800000, 1⟩ : SessionCache ℕ ℕ).set "a" 1 [] 5).set "b" 2 [] 5).sessions.length
        = 2) := by
  constructor <;> rfl

/-- C5 amended: the LRU eviction claim holds under an advancing clock. With
maxSessions = 1 and the second set strictly later than the first, set("a"),
set("b") leaves get("a") absent and get("b") = h2; in general a set at
capacity first evicts the session whose lastAccessed is strictly the globally
oldest — provided that lastAccessed is strictly below the set's Date.now(),
the winning key is not the empty string (JS truthiness skips eviction
otherwise), and keys are unique — then inserts the new session at the tail. -/
theorem sessionCache_lru_eviction :
    (∀ (S H : Type) (h1 h2 : S) (timeout t1 t2 : ℕ), t1 < t2 →
      (((((⟨[], timeout, 1⟩ : SessionCache S H).set "a" h1 [] t1).set "b" h2 [] t2).get
          "a" t2).1 = none) ∧
      (((((⟨[], timeout, 1⟩ : SessionCache S H).set "a" h1 [] t1).set "b" h2 [] t2).get
          "b" t2).1 = some h2)) ∧
    (∀ (S H : Type) (st : SessionCache S H) (userId : String) (s : S)
      (hist : List H) (now : ℕ) (p : String × CachedSession S H),
      st.maxSessions ≤ st.sessions.length →
      p ∈ st.sessions → p.1 ≠ "" → p.2.lastAccessed < now →
      (∀ q ∈ st.sessions, q.1 ≠ p.1 → p.2.lastAccessed < q.2.lastAccessed) →
      (st.sessions.map Prod.fst).Nodup →
      mapHas st.sessions userId = false →
      (st.set userId s hist now).sessions
        = mapDelete st.sessions p.1
          ++ [(userId, { session := s, lastAccessed := now, createdAt := now,
                         messageCount := hist.length, history := hist })]) := by
  constructor
  · intro S H h1 h2 timeout t1 t2 hlt
    have e1 : ((⟨[], timeout, 1⟩ : SessionCache S H).set "a" h1 [] t1)
        = ⟨[("a", ⟨h1, t1, t1, 0, []⟩)], timeout, 1⟩ := rfl
    have hs2 : ((⟨[("a", ⟨h1, t1, t1, 0, []⟩)], timeout, 1⟩ : SessionCache S H).set
          "b" h2 [] t2).sessions = [("b", ⟨h2, t2, t2, 0, []⟩)] := by
      have hmin : ∀ q ∈ ([("a", ⟨h1, t1, t1, 0, []⟩)] :
          List (String × CachedSession S H)), q.1 ≠ "a" →
          t1 < q.2.lastAccessed := by
        intro q hq hq1
        rw [List.mem_singleton] at hq
        exact absurd (by rw [hq]) hq1
      have := set_evicts_min
        (⟨[("a", ⟨h1, t1, t1, 0, []⟩)], timeout, 1⟩ : SessionCache S H)
        "b" h2 [] t2 ("a", ⟨h1, t1, t1, 0, []⟩)
        (le_refl 1) (List.mem_singleton.mpr rfl)
        (show ("a" : String) ≠ "" by decide) hlt hmin (by simp) rfl
      rw [this]
      rfl
    constructor
    · rw [e1]
      have hma : mapGet ((⟨[("a", ⟨h1, t1, t1, 0, []⟩)], timeout, 1⟩ :
          SessionCache S H).set "b" h2 [] t2).sessions "a" = none := by
        rw [hs2]
        rfl
      simp only [SessionCache.get, hma]
    · rw [e1]
      have hmb : mapGet ((⟨[("a", ⟨h1, t1, t1, 0, []⟩)], timeout, 1⟩ :
          SessionCache S H).set "b" h2 [] t2).sessions "b"
          = some ⟨h2, t2, t2, 0, []⟩ := by
        rw [hs2]
        rfl
      simp only [SessionCache.get, hmb]
      rw [if_neg (by omega)]
  · intro S H st userId s hist now p hcap hmem hkey hacc hmin hnodup hfresh
    exact set_evicts_min st userId s hist now p hcap hmem hkey hacc hmin hnodup
      hfresh

/-- Witness for the amended C5: the concrete evict-then-insert run with
t1 = 5 < t2 = 6, and the general clause on a one-entry store at capacity. -/
theorem sessionCache_lru_eviction_witness :
    ((((((⟨[], 1800000, 1⟩ : SessionCache ℕ ℕ).set "a" 1 [] 5).set "b" 2 [] 6).get
        "a" 6).1 = none) ∧
      (((((⟨[], 1800000, 1⟩ : SessionCache ℕ ℕ).set "a" 1 [] 5).set "b" 2 [] 6).get
        "b" 6).1 = some 2)) ∧
    ((⟨[("a", ⟨7, 5, 5, 0, []⟩)], 1800000, 1⟩ : SessionCache ℕ ℕ).set "b" 2 [] 6).sessions
      = mapDelete [("a", ⟨7, 5, 5, 0, []⟩)] "a" ++ [("b", ⟨2, 6, 6, 0, []⟩)] :=
  ⟨sessionCache_lru_eviction.1 ℕ ℕ 1 2 1800000 5 6 (by decide),
   sessionCache_lru_eviction.2 ℕ ℕ ⟨[("a", ⟨7, 5, 5, 0, []⟩)], 1800000, 1⟩
      "b" 2 [] 6 ("a", ⟨7, 5, 5, 0, []⟩) (by decide) (by decide) (by decide)
      (by decide) (by decide) (by decide) (by decide)⟩

/-! ## History trimming (the token utilities module and src/lib/chat/service.ts)

A message part is opaque except for whether it carries a `text` field, so a
part is modelled as `Option String` (`some t` = a part with text `t`). JS
string length counts UTF-16 code units; Lean counts code points — they agree
on the basic-plane text the claims quantify over. -/

/-- CHARS_PER_TOKEN from the token utilities module. -/
def CHARS_PER_TOKEN : ℕ := 4

/-- DEFAULT_MAX_TOKENS from the token utilities module. -/
def DEFAULT_MAX_TOKENS : ℕ := 8000

/-- estimateTokens: `if (!text) return 0; Math.ceil(text.length /
CHARS_PER_TOKEN)`. -/
def estimateTokens (text : String) : ℕ :=
  if text = "" then 0
  else (text.length + CHARS_PER_TOKEN - 1) / CHARS_PER_TOKEN

/-- extractText: map text-less parts to "" and join with a single space. -/
def extractText (parts : List (Option String)) : String :=
  String.intercalate " " (parts.map (fun p => p.getD ""))

/-- One conversation turn (`{ role, parts }`). -/
structure Turn where
  role : String
  parts : List (Option String)
deriving Repr, DecidableEq

/-- The per-turn cost inside trimHistoryByTokens:
`estimateTokens(extractText(msg.parts)) + 10`. -/
def turnTokens (msg : Turn) : ℕ :=
  estimateTokens (extractText msg.parts) + 10

/-- Total estimated cost of a list of turns. -/
def totalTokens (l : List Turn) : ℕ :=
  (l.map turnTokens).sum

/-- The `for (let i = history.length - 1; i >= 0; i--)` loop of
trimHistoryByTokens: `rev` is the unread part of the history, most recent
first; `acc` collects kept turns via unshift. -/
def trimGo (rev : List Turn) (tot maxTokens : ℕ) (acc : List Turn) :
    List Turn :=
  match rev with
  | [] => acc
  | msg :: rest =>
    let tokens := turnTokens msg
    if tot + tokens > maxTokens then acc
    else trimGo rest (tot + tokens) maxTokens (msg :: acc)

/-- trimHistoryByTokens from the token utilities module. -/
def trimHistoryByTokens (history : List Turn) (maxTokens : ℕ) : List Turn :=
  if history.isEmpty then [] else trimGo history.reverse 0 maxTokens []

/-- JS `array.slice(-n)`: the last n elements, except that `slice(-0)` is
`slice(0)`, the whole array. -/
def jsSliceLast (l : List α) (n : ℕ) : List α :=
  if n = 0 then l else l.drop (l.length - n)

/-- CONFIG.MAX_HISTORY_MESSAGES from src/lib/chat/service.ts. -/
def MAX_HISTORY_MESSAGES : ℕ := 30

/-- ChatService.trimHistory, generalised over the message cap and token
budget: `history.slice(-maxMessages)` then `trimHistoryByTokens(_,
maxTokens)`. -/
def ChatService.trimHistory (history : List Turn)
    (maxMessages maxTokens : ℕ) : List Turn :=
  trimHistoryByTokens (jsSliceLast history maxMessages) maxTokens

/-- ChatService.trimHistory as the source instantiates it
(MAX_HISTORY_MESSAGES = 30, token budget 8000). -/
def ChatService.trimHistoryPipeline (history : List Turn) : List Turn :=
  ChatService.trimHistory history MAX_HISTORY_MESSAGES DEFAULT_MAX_TOKENS

/-! ### Trimming lemmas -/

theorem reverse_take_reverse_suffix (l : List α) (n : ℕ) :
    List.IsSuffix ((l.reverse.take n).reverse) l :=
  ⟨(l.reverse.drop n).reverse, by
    rw [← List.reverse_append, List.take_append_drop, List.reverse_reverse]⟩

theorem totalTokens_reverse (l : List Turn) :
    totalTokens l.reverse = totalTokens l := by
  unfold totalTokens
  rw [List.map_reverse, List.sum_reverse]

theorem trimGo_spec (rev : List Turn) :
    ∀ (tot mt : ℕ) (acc : List Turn), tot ≤ mt →
    ∃ n, n ≤ rev.length ∧
      trimGo rev tot mt acc = (rev.take n).reverse ++ acc ∧
      tot + totalTokens (rev.take n) ≤ mt ∧
      (∀ x, rev[n]? = some x →
        tot + totalTokens (rev.take n) + turnTokens x > mt) := by
  induction rev with
  | nil =>
    intro tot mt acc htot
    refine ⟨0, Nat.le_refl 0, rfl, ?_, ?_⟩
    · simpa [totalTokens] using htot
    · intro x hx
      simp at hx
  | cons msg rest ih =>
    intro tot mt acc htot
    simp only [trimGo]
    by_cases hbr : tot + turnTokens msg > mt
    · rw [if_pos hbr]
      refine ⟨0, Nat.zero_le _, rfl, ?_, ?_⟩
      · simpa [totalTokens] using htot
      · intro x hx
        simp only [List.getElem?_cons_zero, Option.some_inj] at hx
        subst hx
        simpa [totalTokens] using hbr
    · rw [if_neg hbr]
      rw [not_lt] at hbr
      obtain ⟨n, hn, heq, hbd, hbreak⟩ := ih (tot + turnTokens msg) mt
        (msg :: acc) hbr
      refine ⟨n + 1, by simpa using Nat.succ_le_succ hn, ?_, ?_, ?_⟩
      · rw [heq, List.take_succ_cons, List.reverse_cons, List.append_assoc]
        rfl
      · rw [List.take_succ_cons]
        simp only [totalTokens, List.map_cons, List.sum_cons]
        simp only [totalTokens] at hbd
        omega
      · intro x hx
        rw [List.getElem?_cons_succ] at hx
        have := hbreak x hx
        rw [List.take_succ_cons]
        simp only [totalTokens, List.map_cons, List.sum_cons]
        simp only [totalTokens] at this
        omega

theorem trimGo_keeps_all (rev : List Turn) :
    ∀ (tot mt : ℕ) (acc : List Turn), tot + totalTokens rev ≤ mt →
    trimGo rev tot mt acc = rev.reverse ++ acc := by
  induction rev with
  | nil => intro tot mt acc _; rfl
  | cons msg rest ih =>
    intro tot mt acc h
    simp only [totalTokens, List.map_cons, List.sum_cons] at h
    simp only [trimGo]
    rw [if_neg (by omega)]
    rw [ih (tot + turnTokens msg) mt (msg :: acc) (by simpa [totalTokens] using
      (by omega : tot + turnTokens msg + (rest.map turnTokens).sum ≤ mt))]
    rw [List.reverse_cons, List.append_assoc]
    rfl

theorem trimHistoryByTokens_suffix (h : List Turn) (mt : ℕ) :
    List.IsSuffix (trimHistoryByTokens h mt) h := by
  unfold trimHistoryByTokens
  split
  · exact ⟨h, by simp⟩
  · obtain ⟨n, _, heq, _, _⟩ := trimGo_spec h.reverse 0 mt [] (Nat.zero_le mt)
    rw [heq, List.append_nil]
    exact reverse_take_reverse_suffix h n

theorem trimHistoryByTokens_le (h : List Turn) (mt : ℕ) :
    totalTokens (trimHistoryByTokens h mt) ≤ mt := by
  unfold trimHistoryByTokens
  split
  · simp [totalTokens]
  · obtain ⟨n, _, heq, hbd, _⟩ := trimGo_spec h.reverse 0 mt [] (Nat.zero_le mt)
    rw [heq, List.append_nil, totalTokens_reverse]
    simpa using hbd

theorem trimHistoryByTokens_keeps_all (h : List Turn) (mt : ℕ)
    (hle : totalTokens h ≤ mt) : trimHistoryByTokens h mt = h := by
  unfold trimHistoryByTokens
  split
  · rename_i he
    rw [List.isEmpty_iff] at he
    rw [he]
  · rw [trimGo_keeps_all h.reverse 0 mt []
      (by rw [totalTokens_reverse]; omega)]
    rw [List.append_nil, List.reverse_reverse]

theorem trimHistoryByTokens_break (h : List Turn) (mt : ℕ)
    (pre : List Turn) (x : Turn)
    (hdec : h = pre ++ x :: trimHistoryByTokens h mt) :
    totalTokens (trimHistoryByTokens h mt) + turnTokens x > mt := by
  have hne : h.isEmpty = false := by
    rw [List.isEmpty_eq_false]
    intro hnil
    rw [hnil] at hdec
    exact absurd hdec.symm (by simp)
  unfold trimHistoryByTokens at hdec ⊢
  rw [hne] at hdec ⊢
  simp only [Bool.false_eq_true, if_false] at hdec ⊢
  obtain ⟨n, hn, heq, hbd, hbreak⟩ := trimGo_spec h.reverse 0 mt []
    (Nat.zero_le mt)
  rw [heq, List.append_nil] at hdec ⊢
  have hrev : h.reverse = h.reverse.take n ++ x :: pre.reverse := by
    calc h.reverse = (pre ++ x :: (h.reverse.take n).reverse).reverse := by
          rw [← hdec]
      _ = (h.reverse.take n).reverse.reverse ++ [x] ++ pre.reverse := by
          rw [List.reverse_append, List.reverse_cons]
      _ = h.reverse.take n ++ x :: pre.reverse := by
          rw [List.reverse_reverse, List.append_assoc, List.singleton_append]
  have hdrop : h.reverse.drop n = x :: pre.reverse := by
    have h2 : h.reverse.take n ++ h.reverse.drop n
        = h.reverse.take n ++ (x :: pre.reverse) := by
      rw [List.take_append_drop]
      exact hrev
    exact List.append_cancel_left h2
  have hx : h.reverse[n]? = some x := by
    have h3 := List.getElem?_drop h.reverse n 0
    rw [hdrop] at h3
    simp only [List.getElem?_cons_zero, Nat.add_zero] at h3
    exact h3.symm
  have := hbreak x hx
  rw [totalTokens_reverse]
  omega

/-! ### Claim theorems: history trimming -/

/-- C7: the output of trimHistory is always a contiguous suffix of the input
(no turn dropped from the middle, original order kept), and on a 25-turn
input with maxMessages = 20 whose kept turns fit the token budget the output
is exactly turns 6 through 25, i.e. drop 5. -/
theorem trimHistory_suffix :
    (∀ (h : List Turn) (m t : ℕ),
      List.IsSuffix (ChatService.trimHistory h m t) h) ∧
    (∀ (h : List Turn) (t : ℕ), h.length = 25 →
      totalTokens (h.drop 5) ≤ t →
      ChatService.trimHistory h 20 t = h.drop 5) := by
  constructor
  · intro h m t
    apply List.IsSuffix.trans (trimHistoryByTokens_suffix _ t)
    unfold jsSliceLast
    split
    · exact List.suffix_refl h
    · exact List.drop_suffix _ h
  · intro h t hlen hfit
    unfold ChatService.trimHistory jsSliceLast
    rw [if_neg (by omega), hlen]
    exact trimHistoryByTokens_keeps_all _ t hfit

/-- Witness for C7 on a concrete 25-turn history. -/
theorem trimHistory_suffix_witness :
    List.IsSuffix
      (ChatService.trimHistory
        (List.replicate 25 { role := "user", parts := [some "hi"] }) 20 8000)
      (List.replicate 25 { role := "user", parts := [some "hi"] }) ∧
    ChatService.trimHistory
        (List.replicate 25 { role := "user", parts := [some "hi"] }) 20 8000
      = (List.replicate 25
          { role := "user", parts := [some "hi"] } : List Turn).drop 5 :=
  ⟨trimHistory_suffix.1 (List.replicate 25 ⟨"user", [some "hi"]⟩) 20 8000,
   trimHistory_suffix.2 (List.replicate 25 ⟨"user", [some "hi"]⟩) 8000
    (by decide) (by decide)⟩

/-- C8: the per-turn cost is ceil(len(extractText(parts))/4) + 10; the kept
suffix of trimHistoryByTokens is a contiguous suffix whose total estimated
cost is ≤ maxTokens; and the walk stops at the first (most recent unkept)
turn whose inclusion would exceed the budget: that turn's cost plus the kept
total exceeds maxTokens. -/
theorem trimByTokens_budget :
    (∀ msg : Turn,
      turnTokens msg = ((extractText msg.parts).length + 3) / 4 + 10) ∧
    (∀ (h : List Turn) (t : ℕ),
      List.IsSuffix (trimHistoryByTokens h t) h ∧
      totalTokens (trimHistoryByTokens h t) ≤ t) ∧
    (∀ (h : List Turn) (t : ℕ) (pre : List Turn) (x : Turn),
      h = pre ++ x :: trimHistoryByTokens h t →
      totalTokens (trimHistoryByTokens h t) + turnTokens x > t) := by
  refine ⟨?_, ?_, ?_⟩
  · intro msg
    unfold turnTokens estimateTokens CHARS_PER_TOKEN
    split
    · rename_i he
      rw [he]
      rfl
    · rfl
  · intro h t
    exact ⟨trimHistoryByTokens_suffix h t, trimHistoryByTokens_le h t⟩
  · intro h t pre x hdec
    exact trimHistoryByTokens_break h t pre x hdec

/-- Witness for C8: two 11-token turns against a budget of 15 keep only the
most recent turn, and including the older one would cost 22 > 15. -/
theorem trimByTokens_budget_witness :
    turnTokens { role := "user", parts := [some "hi"] }
      = ((extractText [some "hi"]).length + 3) / 4 + 10 ∧
    (List.IsSuffix
      (trimHistoryByTokens
        [{ role := "user", parts := [some "one"] },
         { role := "model", parts := [some "two"] }] 15)
      [{ role := "user", parts := [some "one"] },
       { role := "model", parts := [some "two"] }] ∧
     totalTokens (trimHistoryByTokens
        [{ role := "user", parts := [some "one"] },
         { role := "model", parts := [some "two"] }] 15) ≤ 15) ∧
    totalTokens (trimHistoryByTokens
        [{ role := "user", parts := [some "one"] },
         { role := "model", parts := [some "two"] }] 15)
      + turnTokens { role := "user", parts := [some "one"] } > 15 :=
  ⟨trimByTokens_budget.1 ⟨"user", [some "hi"]⟩,
   trimByTokens_budget.2.1
    [⟨"user", [some "one"]⟩, ⟨"model", [some "two"]⟩] 15,
   trimByTokens_budget.2.2
    [⟨"user", [some "one"]⟩, ⟨"model", [some "two"]⟩] 15
    [] ⟨"user", [some "one"]⟩ (by decide)⟩

/-- C9: trimming is idempotent — trim(trim(h, m, t), m, t) = trim(h, m, t)
for every history, message cap and token budget. -/
theorem trimHistory_idempotent :
    ∀ (h : List Turn) (m t : ℕ),
      ChatService.trimHistory (ChatService.trimHistory h m t) m t
        = ChatService.trimHistory h m t := by
  intro h m t
  have hsl : jsSliceLast (ChatService.trimHistory h m t) m
      = ChatService.trimHistory h m t := by
    unfold jsSliceLast
    split
    · rfl
    · have h1 : (ChatService.trimHistory h m t).length ≤ m := by
        have h2 := (trimHistoryByTokens_suffix (jsSliceLast h m) t).length_le
        have h3 : (jsSliceLast h m).length ≤ m := by
          unfold jsSliceLast
          split
          · omega
          · rw [List.length_drop]
            omega
        unfold ChatService.trimHistory
        omega
      rw [show (ChatService.trimHistory h m t).length - m = 0 by omega]
      exact List.drop_zero _
  show trimHistoryByTokens (jsSliceLast (ChatService.trimHistory h m t) m) t
      = ChatService.trimHistory h m t
  rw [hsl]
  exact trimHistoryByTokens_keeps_all _ t
    (trimHistoryByTokens_le (jsSliceLast h m) t)

end Spec2Proof
